import Mathlib

/-!
# Verification of the gokvs transaction-logging subsystem

A shallow embedding, in Lean 4, of the transaction-log core of the gokvs
repository (`internal/transact.go`): the file-backed logger (write path,
line format, `ReadEvents` replay with its `fmt.Sscanf`-based line parser),
the SQLite-backed logger (insert loop, ordered replay), the URL escaping
used for values (Go's `net/url.QueryEscape` / `QueryUnescape` in query
mode), and the one-shot file-to-SQLite migration.

Bytes are modelled as `Nat` (with `< 256` hypotheses where the byte range
matters), Go strings as `List Nat` of their bytes, and `uint64` arithmetic
with an explicit `% 2^64`.  Lines handed to the parser come from
`bufio.Scanner` with the default line splitter, so they never contain a
newline byte; the scan model is stated for such lines (an explicit
`10 ∉ line` hypothesis where a theorem quantifies over arbitrary lines)
and, like the Go scanner on the ASCII inputs the log format produces,
treats each byte as one character.
-/

set_option maxRecDepth 4096

namespace Gokvs

/-- Space characters as recognised by Go's `fmt` scanner on ASCII input,
excluding newline (which `bufio.Scanner` strips before a line reaches
`fmt.Sscanf`, and which the scanner treats specially): TAB, VT, FF, CR, SP. -/
def goIsSpace (b : Nat) : Bool :=
  b == 9 || b == 11 || b == 12 || b == 13 || b == 32

/-- ASCII decimal digit byte. -/
def isDigitByte (b : Nat) : Bool := 48 ≤ b && b ≤ 57

/-! ## Go `net/url` query escaping (`url.QueryEscape` / `url.QueryUnescape`) -/

/-- Bytes `url.shouldEscape` leaves unescaped in `encodeQueryComponent`
mode: ASCII alphanumerics and `-`, `_`, `.`, `~`. -/
def queryUnreserved (b : Nat) : Bool :=
  (65 ≤ b && b ≤ 90) || (97 ≤ b && b ≤ 122) || (48 ≤ b && b ≤ 57) ||
  b == 45 || b == 95 || b == 46 || b == 126

/-- Upper-case hexadecimal digit byte for a nibble (`"0123456789ABCDEF"`). -/
def upperHexByte (n : Nat) : Nat := if n < 10 then 48 + n else 55 + n

/-- One byte of `url.QueryEscape`: space becomes `'+'`, unreserved bytes
pass through, everything else becomes `%XX` with upper-case hex. -/
def escapeByte (b : Nat) : List Nat :=
  if b == 32 then [43]
  else if queryUnreserved b then [b]
  else [37, upperHexByte (b / 16), upperHexByte (b % 16)]

/-- Go's `url.QueryEscape` on a byte string. -/
def queryEscape (s : List Nat) : List Nat := (s.map escapeByte).flatten

/-- Hexadecimal digit byte as accepted by `url.ishex`. -/
def isHexByte (b : Nat) : Bool :=
  (48 ≤ b && b ≤ 57) || (97 ≤ b && b ≤ 102) || (65 ≤ b && b ≤ 70)

/-- `url.unhex`: numeric value of a hexadecimal digit byte. -/
def unhexByte (b : Nat) : Nat :=
  if 48 ≤ b && b ≤ 57 then b - 48
  else if 97 ≤ b && b ≤ 102 then b - 97 + 10
  else if 65 ≤ b && b ≤ 70 then b - 65 + 10
  else 0

/-- Go's `url.QueryUnescape`: `%XY` (two hex digits required, else an
`EscapeError`) decodes to a byte, `'+'` decodes to space, every other byte
passes through.  `none` models the error return. -/
def queryUnescape : List Nat → Option (List Nat)
  | [] => some []
  | b :: rest =>
    if b = 37 then
      match rest with
      | h1 :: h2 :: rest2 =>
        if isHexByte h1 && isHexByte h2 then
          (queryUnescape rest2).map (fun t => (unhexByte h1 * 16 + unhexByte h2) :: t)
        else none
      | _ => none
    else if b = 43 then (queryUnescape rest).map (fun t => 32 :: t)
    else (queryUnescape rest).map (fun t => b :: t)

/-! Basic facts about the escaping. -/

theorem upperHex_isHex_unhex : ∀ n < 16,
    isHexByte (upperHexByte n) = true ∧ unhexByte (upperHexByte n) = n := by decide

theorem queryUnreserved_notSpecial {b : Nat} (h : queryUnreserved b = true) :
    b ≠ 37 ∧ b ≠ 43 := by
  constructor <;> rintro rfl <;> simp [queryUnreserved] at h

theorem queryUnescape_plus (t : List Nat) :
    queryUnescape (43 :: t) = (queryUnescape t).map (fun u => 32 :: u) := by
  rw [queryUnescape.eq_def]; simp

theorem queryUnescape_plain {b : Nat} (h37 : b ≠ 37) (h43 : b ≠ 43) (t : List Nat) :
    queryUnescape (b :: t) = (queryUnescape t).map (fun u => b :: u) := by
  rw [queryUnescape.eq_def]; simp [h37, h43]

theorem queryUnescape_pct {h1 h2 : Nat} (hx1 : isHexByte h1 = true)
    (hx2 : isHexByte h2 = true) (t : List Nat) :
    queryUnescape (37 :: h1 :: h2 :: t) =
      (queryUnescape t).map (fun u => (unhexByte h1 * 16 + unhexByte h2) :: u) := by
  rw [queryUnescape.eq_def]; simp [hx1, hx2]

/-- Unescaping the escape of a single byte peels that byte off. -/
theorem queryUnescape_escapeByte (b : Nat) (hb : b < 256) (t : List Nat) :
    queryUnescape (escapeByte b ++ t) = (queryUnescape t).map (fun u => b :: u) := by
  by_cases hsp : b = 32
  · subst hsp
    have : escapeByte 32 ++ t = 43 :: t := rfl
    rw [this, queryUnescape_plus]
  · by_cases hur : queryUnreserved b = true
    · have hne := queryUnreserved_notSpecial hur
      have : escapeByte b ++ t = b :: t := by
        simp [escapeByte, hsp, hur]
      rw [this, queryUnescape_plain hne.1 hne.2]
    · have h1 : b / 16 < 16 := by omega
      have h2 : b % 16 < 16 := Nat.mod_lt _ (by norm_num)
      obtain ⟨hx1, hu1⟩ := upperHex_isHex_unhex _ h1
      obtain ⟨hx2, hu2⟩ := upperHex_isHex_unhex _ h2
      have : escapeByte b ++ t =
          37 :: upperHexByte (b / 16) :: upperHexByte (b % 16) :: t := by
        simp [escapeByte, hsp, hur]
      rw [this, queryUnescape_pct hx1 hx2, hu1, hu2]
      have hb' : b / 16 * 16 + b % 16 = b := by omega
      rw [hb']

/-- C8 core: `url.QueryUnescape (url.QueryEscape s) = s` with no error,
for every byte string `s`. -/
theorem queryUnescape_queryEscape {s : List Nat} (h : ∀ b ∈ s, b < 256) :
    queryUnescape (queryEscape s) = some s := by
  induction s with
  | nil => rfl
  | cons b rest ih =>
    have hb : b < 256 := h b (List.mem_cons_self _ _)
    have hrest : ∀ x ∈ rest, x < 256 := fun x hx => h x (List.mem_cons_of_mem _ hx)
    have : queryEscape (b :: rest) = escapeByte b ++ queryEscape rest := by
      simp [queryEscape]
    rw [this, queryUnescape_escapeByte b hb, ih hrest]
    rfl

/-- Unescaping a byte string that contains neither `%` nor `+` returns it
unchanged (used for the reader's re-unescape of an already-decoded value). -/
theorem queryUnescape_of_no_special {s : List Nat} (h37 : 37 ∉ s) (h43 : 43 ∉ s) :
    queryUnescape s = some s := by
  induction s with
  | nil => rfl
  | cons b rest ih =>
    have hb37 : b ≠ 37 := fun hc => h37 (hc ▸ List.mem_cons_self _ _)
    have hb43 : b ≠ 43 := fun hc => h43 (hc ▸ List.mem_cons_self _ _)
    rw [queryUnescape_plain hb37 hb43,
      ih (fun hc => h37 (List.mem_cons_of_mem _ hc))
        (fun hc => h43 (List.mem_cons_of_mem _ hc))]
    rfl

/-- Every byte produced by `url.QueryEscape` is a non-space printable ASCII
byte; in particular it is not a scanner space character and not a newline. -/
theorem queryEscape_byte_plain : ∀ b < 256, ∀ c ∈ escapeByte b,
    goIsSpace c = false ∧ c ≠ 10 := by decide

theorem queryEscape_no_space {s : List Nat} (h : ∀ b ∈ s, b < 256) :
    ∀ c ∈ queryEscape s, goIsSpace c = false ∧ c ≠ 10 := by
  intro c hc
  simp only [queryEscape, List.mem_flatten, List.mem_map] at hc
  obtain ⟨l, ⟨b, hb, rfl⟩, hcl⟩ := hc
  exact queryEscape_byte_plain b (h b hb) c hcl

theorem queryEscape_ne_nil {s : List Nat} (h : s ≠ []) : queryEscape s ≠ [] := by
  cases s with
  | nil => exact absurd rfl h
  | cons b rest =>
    have : escapeByte b ≠ [] := by
      unfold escapeByte; split <;> [skip; split] <;> simp
    simp only [queryEscape, List.map_cons, List.flatten_cons, ne_eq,
      List.append_eq_nil]
    intro hc
    exact this hc.1

/-! ## The event model (`internal/transact.go`)

`Event` carries a `uint64` sequence number, a one-byte event type
(`EventDelete = 1`, `EventPut = 2`), a key and a value, all modelled over
`Nat` / byte lists. -/

/-- `EventDelete` tag. -/
def eventDelete : Nat := 1
/-- `EventPut` tag. -/
def eventPut : Nat := 2

structure GoEvent where
  sequence : Nat
  eventType : Nat
  key : List Nat
  value : List Nat
deriving DecidableEq, Repr

/-- The zero `Event` (`var e Event` in `ReadEvents`). -/
def initEvent : GoEvent := ⟨0, 0, [], []⟩

/-! ## `fmt.Sscanf(line, "%d\t%d\t%s\t%s", ...)`

The scan model follows Go's `fmt` scanner on newline-free byte lines:

* `%d` into an unsigned integer skips spaces, fails on end of input with
  `io.EOF`, fails (non-EOF) on a sign or a missing digit, reads a maximal
  digit run and fails (non-EOF) on overflow of the destination width;
* a tab in the format matches a nonempty run of spaces, or end of input;
  anything else is a (non-EOF) match failure;
* `%s` skips spaces, fails on end of input with `io.EOF`, and reads a
  maximal run of non-space bytes.

The two error classes are kept apart because `ReadEvents` treats
`err == io.EOF` differently from any other error. -/

inductive ScanStep (α : Type) where
  | ok (v : α) (rest : List Nat)
  | eof
  | fail
deriving DecidableEq

/-- Decimal value of a most-significant-first digit-byte run. -/
def digitsToNat (ds : List Nat) : Nat := ds.foldl (fun a d => a * 10 + (d - 48)) 0

/-- `%d` into an unsigned destination of `bound = 2^bits`. -/
def scanUintF (bound : Nat) (l : List Nat) : ScanStep Nat :=
  match l.dropWhile goIsSpace with
  | [] => .eof
  | c :: cs =>
    if c = 43 ∨ c = 45 then .fail
    else if (c :: cs).takeWhile isDigitByte = [] then .fail
    else if bound ≤ digitsToNat ((c :: cs).takeWhile isDigitByte) then .fail
    else .ok (digitsToNat ((c :: cs).takeWhile isDigitByte))
      ((c :: cs).dropWhile isDigitByte)

/-- A tab in the format string: matches end of input, or consumes a
nonempty run of space bytes; a non-space next byte is a match failure. -/
def matchTab (l : List Nat) : Option (List Nat) :=
  match l with
  | [] => some []
  | c :: _ =>
    if goIsSpace c then some (l.dropWhile goIsSpace) else none

/-- `%s`: a maximal nonempty run of non-space bytes. -/
def scanStringF (l : List Nat) : ScanStep (List Nat) :=
  match l.dropWhile goIsSpace with
  | [] => .eof
  | c :: cs =>
    .ok ((c :: cs).takeWhile (fun b => !goIsSpace b))
      ((c :: cs).dropWhile (fun b => !goIsSpace b))

/-- Which error, if any, `fmt.Sscanf` returned. -/
inductive ScanErr where
  | eof
  | fail
deriving DecidableEq

structure ScanOut where
  n : Nat
  err : Option ScanErr
  e : GoEvent
deriving DecidableEq

/-- `fmt.Sscanf(line, "%d\t%d\t%s\t%s", &e.Sequence, &e.EventType, &e.Key,
&e.Value)`: verbs assign into `e` as they succeed, so on a partial scan the
remaining fields keep their previous contents. -/
def sscanfLine (e : GoEvent) (l : List Nat) : ScanOut :=
  match scanUintF (2 ^ 64) l with
  | .eof => ⟨0, some .eof, e⟩
  | .fail => ⟨0, some .fail, e⟩
  | .ok seq l1 =>
    let e1 : GoEvent := { e with sequence := seq }
    match matchTab l1 with
    | none => ⟨1, some .fail, e1⟩
    | some l2 =>
      match scanUintF (2 ^ 8) l2 with
      | .eof => ⟨1, some .eof, e1⟩
      | .fail => ⟨1, some .fail, e1⟩
      | .ok et l3 =>
        let e2 : GoEvent := { e1 with eventType := et }
        match matchTab l3 with
        | none => ⟨2, some .fail, e2⟩
        | some l4 =>
          match scanStringF l4 with
          | .eof => ⟨2, some .eof, e2⟩
          | .fail => ⟨2, some .fail, e2⟩
          | .ok k l5 =>
            let e3 : GoEvent := { e2 with key := k }
            match matchTab l5 with
            | none => ⟨3, some .fail, e3⟩
            | some l6 =>
              match scanStringF l6 with
              | .eof => ⟨3, some .eof, e3⟩
              | .fail => ⟨3, some .fail, e3⟩
              | .ok v _ => ⟨4, none, { e3 with value := v }⟩

/-! ## `TransactionLog.ReadEvents` -/

/-- The error cases of the replay goroutine, in source order. -/
inductive ReplayErr where
  | parseFail      -- "input parse error"     (err != nil && err != io.EOF)
  | wrongCount     -- "input wrong number parsed" (err == nil && n < 4)
  | outOfSequence  -- "transaction numbers out of sequence"
  | decodeFail     -- "value decoding failure"
deriving DecidableEq, Repr

/-- One pass of the `for scanner.Scan()` loop of `ReadEvents`, threading the
reused `Event` variable `e` and the logger's `lastSequence`.  Returns the
events sent on `outEvent`, the error (if any) sent on `outError`, and the
final values of `e` and `lastSequence`. -/
def readLoop (e : GoEvent) (lastSeq : Nat) :
    List (List Nat) → List GoEvent × Option ReplayErr × GoEvent × Nat
  | [] => ([], none, e, lastSeq)
  | line :: rest =>
    let r := sscanfLine e line
    if r.err = some .fail then ([], some .parseFail, r.e, lastSeq)
    else if r.err = none ∧ r.n < 4 then ([], some .wrongCount, r.e, lastSeq)
    else if r.e.sequence ≤ lastSeq then ([], some .outOfSequence, r.e, lastSeq)
    else
      match queryUnescape r.e.value with
      | none => ([], some .decodeFail, r.e, lastSeq)
      | some uv =>
        let e' : GoEvent := ⟨r.e.sequence, r.e.eventType, r.e.key, uv⟩
        let out := readLoop e' r.e.sequence rest
        (e' :: out.1, out.2)

/-- `ReadEvents` on a logger whose `lastSequence` is `lastSeq` (0 for a
freshly constructed logger), fed the scanned lines of the log file. -/
def readEvents (lastSeq : Nat) (lines : List (List Nat)) :
    List GoEvent × Option ReplayErr × GoEvent × Nat :=
  readLoop initEvent lastSeq lines

/-! ## The write path: `WritePut` / `WriteDelete` / `Run` -/

/-- A call on the `TransactionLogger` write interface. -/
inductive Op where
  | put (key value : List Nat)
  | del (key : List Nat)
deriving DecidableEq

/-- The `Event` placed on the events channel: `WritePut` escapes the value,
`WriteDelete` sends a zero value; neither touches the key or sequence. -/
def opEvent : Op → GoEvent
  | .put k v => ⟨0, eventPut, k, queryEscape v⟩
  | .del k => ⟨0, eventDelete, k, []⟩

/-- Decimal digit bytes of `n`, most significant first, by repeated
division (`fuel` bounds the recursion; any `fuel ≥ n` is exact). -/
def natDecimalAux : Nat → Nat → List Nat
  | 0, _ => []
  | fuel + 1, n => if n = 0 then [] else natDecimalAux fuel (n / 10) ++ [n % 10 + 48]

/-- Most-significant-first decimal digit bytes of `n` (`fmt.Fprintf` `%d`). -/
def natDecimal (n : Nat) : List Nat :=
  if n = 0 then [48] else natDecimalAux n n

/-- One log line as written by the `Run` goroutine:
`fmt.Fprintf(file, "%d\t%d\t%s\t%s\n", seq, type, key, value)`. -/
def formatLine (seq etype : Nat) (key value : List Nat) : List Nat :=
  natDecimal seq ++ [9] ++ natDecimal etype ++ [9] ++ key ++ [9] ++ value ++ [10]

/-- The `Run` goroutine draining the events channel: each event increments
the `uint64` counter `lastSequence` (with wraparound) and appends one
formatted line.  Returns the final counter and the appended bytes. -/
def runWriter (lastSeq : Nat) : List Op → Nat × List Nat
  | [] => (lastSeq, [])
  | op :: rest =>
    let s := (lastSeq + 1) % 2 ^ 64
    let ev := opEvent op
    let out := runWriter s rest
    (out.1, formatLine s ev.eventType ev.key ev.value ++ out.2)

/-! ## `bufio.Scanner` with `ScanLines` -/

/-- Drop one trailing carriage return (`dropCR` in `bufio.ScanLines`). -/
def dropCR (l : List Nat) : List Nat :=
  match l.reverse with
  | c :: t => if c = 13 then t.reverse else l
  | [] => l

/-- Split file bytes at newline bytes, dropping one trailing `\r` per line;
a final unterminated chunk is emitted, a trailing newline produces no empty
final line. -/
def splitLinesGo : List Nat → List Nat → List (List Nat)
  | [], acc => if acc.isEmpty then [] else [dropCR acc.reverse]
  | c :: rest, acc =>
    if c = 10 then dropCR acc.reverse :: splitLinesGo rest []
    else splitLinesGo rest (c :: acc)

def splitLines (bs : List Nat) : List (List Nat) := splitLinesGo bs []

/-- End-to-end round trip on a fresh, empty log file: write the operations
through `Run`, then replay the file with a new logger. -/
def roundTrip (ops : List Op) : List GoEvent × Option ReplayErr × GoEvent × Nat :=
  readEvents 0 (splitLines (runWriter 0 ops).2)

/-! ## Structural lemmas about the replay loop -/

theorem readLoop_nil (e : GoEvent) (ls : Nat) : readLoop e ls [] = ([], none, e, ls) := rfl

theorem readLoop_cons (e : GoEvent) (ls : Nat) (line : List Nat) (rest : List (List Nat)) :
    readLoop e ls (line :: rest) =
      (let r := sscanfLine e line
      if r.err = some .fail then ([], some .parseFail, r.e, ls)
      else if r.err = none ∧ r.n < 4 then ([], some .wrongCount, r.e, ls)
      else if r.e.sequence ≤ ls then ([], some .outOfSequence, r.e, ls)
      else
        match queryUnescape r.e.value with
        | none => ([], some .decodeFail, r.e, ls)
        | some uv =>
          let e' : GoEvent := ⟨r.e.sequence, r.e.eventType, r.e.key, uv⟩
          let out := readLoop e' r.e.sequence rest
          (e' :: out.1, out.2)) := rfl

/-- The loop on `xs ++ ys` runs `xs` first; an error while scanning `xs`
ends the stream there, otherwise `ys` continues from the final state. -/
theorem readLoop_append (e : GoEvent) (ls : Nat) (xs ys : List (List Nat)) :
    readLoop e ls (xs ++ ys) =
      match readLoop e ls xs with
      | (evs, none, e', ls') =>
        let o2 := readLoop e' ls' ys
        (evs ++ o2.1, o2.2)
      | (evs, some err, e', ls') => (evs, some err, e', ls') := by
  induction xs generalizing e ls with
  | nil => simp [readLoop_nil]
  | cons line rest ih =>
    rw [List.cons_append, readLoop_cons, readLoop_cons]
    by_cases h1 : (sscanfLine e line).err = some .fail
    · simp [h1]
    · by_cases h2 : (sscanfLine e line).err = none ∧ (sscanfLine e line).n < 4
      · simp [h1, h2]
      · by_cases h3 : (sscanfLine e line).e.sequence ≤ ls
        · simp [h1, h2, h3]
        · simp only [h1, h2, h3, if_false, if_neg]
          cases hu : queryUnescape (sscanfLine e line).e.value with
          | none => simp
          | some uv =>
            simp only []
            rw [ih]
            cases ho : readLoop ⟨(sscanfLine e line).e.sequence,
                (sscanfLine e line).e.eventType, (sscanfLine e line).e.key, uv⟩
                (sscanfLine e line).e.sequence rest with
            | mk evs rest2 =>
              obtain ⟨err, e', ls'⟩ := rest2
              cases err <;> simp

/-- Sequence bookkeeping of the replay loop: every emitted event's sequence
is strictly above the entry `lastSequence` and at most the final one,
adjacent emitted sequences strictly increase, and `lastSequence` never
decreases. -/
theorem readLoop_seq_facts (lines : List (List Nat)) (e : GoEvent) (ls : Nat) :
    (∀ ev ∈ (readLoop e ls lines).1,
        ls < ev.sequence ∧ ev.sequence ≤ (readLoop e ls lines).2.2.2) ∧
    List.Chain' (fun a b => a.sequence < b.sequence) (readLoop e ls lines).1 ∧
    ls ≤ (readLoop e ls lines).2.2.2 := by
  induction lines generalizing e ls with
  | nil => simp [readLoop_nil]
  | cons line rest ih =>
    rw [readLoop_cons]
    by_cases h1 : (sscanfLine e line).err = some .fail
    · simp [h1]
    · by_cases h2 : (sscanfLine e line).err = none ∧ (sscanfLine e line).n < 4
      · simp [h1, h2]
      · by_cases h3 : (sscanfLine e line).e.sequence ≤ ls
        · simp [h1, h2, h3]
        · simp only [h1, h2, h3, if_false, if_neg]
          cases hu : queryUnescape (sscanfLine e line).e.value with
          | none => simp
          | some uv =>
            dsimp only
            obtain ⟨ihall, ihchain, ihle⟩ :=
              ih ⟨(sscanfLine e line).e.sequence, (sscanfLine e line).e.eventType,
                (sscanfLine e line).e.key, uv⟩ (sscanfLine e line).e.sequence
            have hls : ls < (sscanfLine e line).e.sequence := by omega
            refine ⟨?_, ?_, ?_⟩
            · intro ev hev
              rcases List.mem_cons.mp hev with rfl | hev'
              · exact ⟨hls, ihle⟩
              · exact ⟨lt_trans hls (ihall ev hev').1, (ihall ev hev').2⟩
            · refine List.chain'_cons'.mpr ⟨?_, ihchain⟩
              intro b hb
              exact (ihall b (List.mem_of_mem_head? hb)).1
            · exact le_of_lt (lt_of_lt_of_le hls ihle)

/-! ## The SQLite backend (`SQLiteTransactionLogger`)

The `transaction_events` table: `sequence_id INTEGER PRIMARY KEY
AUTOINCREMENT`, `event_type`, `key`, `value`.  The auto-increment counter
hands out identifiers strictly above every identifier ever assigned; rows
are therefore kept in insertion order, which is ascending `sequence_id`
order, so the `ORDER BY sequence_id ASC` replay query is the identity on
the stored row list. -/

structure TableRow where
  id : Nat
  etype : Nat
  key : List Nat
  value : List Nat
deriving DecidableEq, Repr

structure TableState where
  rows : List TableRow
  seqCounter : Nat
deriving DecidableEq, Repr

def emptyTable : TableState := ⟨[], 0⟩

/-- `INSERT INTO transaction_events (event_type, key, value) VALUES (?,?,?)`:
the engine assigns `sequence_id`; returns the new state and the assigned id
(`result.LastInsertId()`). -/
def tableInsert (st : TableState) (etype : Nat) (k v : List Nat) :
    TableState × Nat :=
  (⟨st.rows ++ [⟨st.seqCounter + 1, etype, k, v⟩], st.seqCounter + 1⟩,
    st.seqCounter + 1)

/-- A successful `WritePut`/`WriteDelete` processed by the SQLite `Run`
loop: `WritePut` inserts the URL-escaped value, `WriteDelete` an empty one. -/
def sqliteWriteOp (st : TableState) : Op → TableState
  | .put k v => (tableInsert st eventPut k (queryEscape v)).1
  | .del k => (tableInsert st eventDelete k []).1

/-- `SQLiteTransactionLogger.ReadEvents` row loop: each row's value is
URL-unescaped (a failure aborts the stream), rows stream in ascending
`sequence_id` order. -/
def sqliteReadRows : List TableRow → List GoEvent × Option ReplayErr
  | [] => ([], none)
  | r :: rest =>
    match queryUnescape r.value with
    | none => ([], some .decodeFail)
    | some uv =>
      let out := sqliteReadRows rest
      (⟨r.id, r.etype, r.key, uv⟩ :: out.1, out.2)

/-- Well-formedness of a table state: row ids strictly increase along the
stored order and never exceed the auto-increment counter. -/
def TableWF (st : TableState) : Prop :=
  List.Chain' (· < ·) (st.rows.map (fun r => r.id)) ∧
  ∀ r ∈ st.rows, r.id ≤ st.seqCounter

theorem tableWF_empty : TableWF emptyTable := by
  constructor
  · simp [emptyTable]
  · intro r hr; simp [emptyTable] at hr

theorem tableWF_insert {st : TableState} (h : TableWF st) (etype : Nat)
    (k v : List Nat) : TableWF (tableInsert st etype k v).1 := by
  obtain ⟨hchain, hle⟩ := h
  constructor
  · simp only [tableInsert, List.map_append, List.map_cons, List.map_nil]
    rw [List.chain'_append]
    refine ⟨hchain, List.chain'_singleton _, ?_⟩
    intro x hx y hy
    simp only [List.head?_cons, Option.mem_def, Option.some.injEq] at hy
    subst hy
    rcases List.mem_of_mem_getLast? hx with hmem
    simp only [List.mem_map] at hmem
    obtain ⟨r, hr, rfl⟩ := hmem
    exact Nat.lt_succ_of_le (hle r hr)
  · intro r hr
    simp only [tableInsert, List.mem_append, List.mem_singleton] at hr
    rcases hr with hr | rfl
    · exact Nat.le_succ_of_le (hle r hr)
    · exact le_refl _

/-! ## The SQLite `Run` loop (`transact.go` lines 462–499)

Each drained event is inserted; on a failed insert the error is sent on
the error channel, `wg.Done()` still runs, `lastSequence` is untouched and
the loop continues with the next event; on success `lastSequence` is set
to the storage-assigned id.  The insert outcome (`true` = success) is an
input of the model. -/

structure SqliteLoopState where
  table : TableState
  lastSequence : Nat
  pending : Nat     -- the WaitGroup counter observed by Wait()
  errorsSent : Nat  -- errors delivered on the error channel
deriving DecidableEq, Repr

def sqliteRunLoop (st : SqliteLoopState) :
    List (GoEvent × Bool) → SqliteLoopState
  | [] => st
  | (ev, okFlag) :: rest =>
    if okFlag then
      let ins := tableInsert st.table ev.eventType ev.key ev.value
      sqliteRunLoop ⟨ins.1, ins.2, st.pending - 1, st.errorsSent⟩ rest
    else
      sqliteRunLoop ⟨st.table, st.lastSequence, st.pending - 1, st.errorsSent + 1⟩ rest

/-! ## Migration (`MigrateFileToSQLite`)

The model takes whether the source file exists, its bytes, and the
destination table state.  `none` models the error return taken when the
file replay reports an error (in that case the file is not renamed).  On
success the `Bool` records that the source file was renamed to
`logFile + ".migrated." + pid` (archived, not deleted). -/

/-- The migration loop body: a replayed `Put` is re-submitted through
`WritePut` (which re-escapes the value), a `Delete` through `WriteDelete`
(key only); any other tag matches neither `switch` case and is dropped. -/
def migrateStep (s : TableState) (ev : GoEvent) : TableState :=
  if ev.eventType = eventPut then
    (tableInsert s eventPut ev.key (queryEscape ev.value)).1
  else if ev.eventType = eventDelete then
    (tableInsert s eventDelete ev.key []).1
  else s

def migrateFileToSQLite (fileExists : Bool) (fileBytes : List Nat)
    (st : TableState) : Option (TableState × Bool) :=
  if fileExists = false then some (st, false)
  else if 0 < st.rows.length then some (st, false)
  else
    let o := readEvents 0 (splitLines fileBytes)
    let st' := o.1.foldl migrateStep st
    match o.2.1 with
    | some _ => none
    | none => some (st', true)

/-- The rows the migration loop appends for a replayed event stream,
starting from auto-increment counter `c`. -/
def importRows (c : Nat) : List GoEvent → List TableRow
  | [] => []
  | ev :: rest =>
    if ev.eventType = eventPut then
      ⟨c + 1, eventPut, ev.key, queryEscape ev.value⟩ :: importRows (c + 1) rest
    else if ev.eventType = eventDelete then
      ⟨c + 1, eventDelete, ev.key, []⟩ :: importRows (c + 1) rest
    else importRows c rest

/-! ## Decimal formatting facts -/

theorem natDecimalAux_digits : ∀ fuel n, ∀ b ∈ natDecimalAux fuel n, isDigitByte b = true := by
  intro fuel
  induction fuel with
  | zero => intro n b hb; simp [natDecimalAux] at hb
  | succ fuel ih =>
    intro n b hb
    by_cases h0 : n = 0
    · simp [natDecimalAux, h0] at hb
    · simp only [natDecimalAux, h0, if_false, List.mem_append, List.mem_singleton] at hb
      rcases hb with hb | rfl
      · exact ih _ b hb
      · have : n % 10 < 10 := Nat.mod_lt _ (by norm_num)
        simp only [isDigitByte, Bool.and_eq_true, decide_eq_true_eq]
        omega

theorem digitsToNat_append_digit (xs : List Nat) (d : Nat) :
    digitsToNat (xs ++ [d]) = digitsToNat xs * 10 + (d - 48) := by
  simp [digitsToNat, List.foldl_append]

theorem natDecimalAux_val : ∀ fuel n, n ≤ fuel → digitsToNat (natDecimalAux fuel n) = n := by
  intro fuel
  induction fuel with
  | zero => intro n hn; interval_cases n; rfl
  | succ fuel ih =>
    intro n hn
    by_cases h0 : n = 0
    · simp [natDecimalAux, h0, digitsToNat]
    · have hdiv : n / 10 ≤ fuel := by
        have : n / 10 < n := Nat.div_lt_self (by omega) (by norm_num)
        omega
      simp only [natDecimalAux, h0, if_false]
      rw [digitsToNat_append_digit, ih _ hdiv]
      omega

theorem natDecimal_digits {n : Nat} : ∀ b ∈ natDecimal n, isDigitByte b = true := by
  intro b hb
  unfold natDecimal at hb
  split at hb
  · simp at hb; subst hb; rfl
  · exact natDecimalAux_digits _ _ b hb

theorem natDecimal_val (n : Nat) : digitsToNat (natDecimal n) = n := by
  unfold natDecimal
  split
  · subst ‹n = 0›; rfl
  · exact natDecimalAux_val n n (le_refl n)

theorem natDecimal_ne_nil (n : Nat) : natDecimal n ≠ [] := by
  unfold natDecimal
  split
  · simp
  · rename_i h0
    cases fuel : n with
    | zero => exact absurd fuel h0
    | succ m =>
      simp only [natDecimalAux, fuel, h0]
      rw [if_neg (fuel ▸ h0)]
      simp

theorem isDigitByte_not_space {b : Nat} (h : isDigitByte b = true) :
    goIsSpace b = false := by
  simp only [isDigitByte, Bool.and_eq_true, decide_eq_true_eq] at h
  simp only [goIsSpace, Bool.or_eq_false_iff, beq_eq_false_iff_ne, ne_eq]
  omega

theorem isDigitByte_not_sign {b : Nat} (h : isDigitByte b = true) :
    ¬(b = 43 ∨ b = 45) := by
  simp only [isDigitByte, Bool.and_eq_true, decide_eq_true_eq] at h
  omega

/-! ## Scanning a well-formed field layout -/

theorem dropWhile_head_nonspace {c : Nat} (hc : goIsSpace c = false) (cs : List Nat) :
    (c :: cs).dropWhile goIsSpace = c :: cs :=
  List.dropWhile_cons_of_neg (by simp [hc])

/-- `%d` on `digits ++ [TAB] ++ rest` reads exactly the digit run. -/
theorem scanUintF_digits {bound n : Nat} (hn : n < bound) (rest : List Nat) :
    scanUintF bound (natDecimal n ++ 9 :: rest) = .ok n (9 :: rest) := by
  have hdig := @natDecimal_digits n
  have hnonsp : ∀ b ∈ natDecimal n, goIsSpace b = false :=
    fun b hb => isDigitByte_not_space (hdig b hb)
  obtain ⟨c, cs, hc⟩ : ∃ c cs, natDecimal n = c :: cs := by
    cases h : natDecimal n with
    | nil => exact absurd h (natDecimal_ne_nil n)
    | cons c cs => exact ⟨c, cs, rfl⟩
  have hcd : isDigitByte c = true := hdig c (hc ▸ List.mem_cons_self c cs)
  have hdrop : (natDecimal n ++ 9 :: rest).dropWhile goIsSpace =
      c :: (cs ++ 9 :: rest) := by
    rw [hc, List.cons_append, dropWhile_head_nonspace (isDigitByte_not_space hcd)]
  have hctake : (c :: (cs ++ 9 :: rest)).takeWhile isDigitByte = natDecimal n := by
    rw [← List.cons_append, ← hc, List.takeWhile_append_of_pos hdig,
      List.takeWhile_cons_of_neg (by simp [isDigitByte])]
    simp
  have hcdrop : (c :: (cs ++ 9 :: rest)).dropWhile isDigitByte = 9 :: rest := by
    rw [← List.cons_append, ← hc, List.dropWhile_append_of_pos hdig,
      List.dropWhile_cons_of_neg (by simp [isDigitByte])]
  unfold scanUintF
  rw [hdrop]
  dsimp only
  rw [hctake, hcdrop]
  rw [if_neg (isDigitByte_not_sign hcd), if_neg (natDecimal_ne_nil n),
    if_neg (by rw [natDecimal_val]; omega), natDecimal_val]

/-- A format tab consumes the following run of space bytes. -/
theorem matchTab_cons9 (l : List Nat) :
    matchTab (9 :: l) = some (l.dropWhile goIsSpace) := by
  unfold matchTab
  dsimp only
  rw [if_pos (show goIsSpace 9 = true by rfl),
    List.dropWhile_cons_of_pos (show goIsSpace 9 = true by rfl)]

/-- A format tab at a line's last TAB: consumes it, leaving end of input. -/
theorem matchTab_tab_nil : matchTab [9] = some [] := rfl

/-- `%s` on `tok ++ [TAB] ++ rest` with a nonempty non-space token. -/
theorem scanStringF_token {tok : List Nat} (hne : tok ≠ [])
    (hnsp : ∀ b ∈ tok, goIsSpace b = false) (rest : List Nat) :
    scanStringF (tok ++ 9 :: rest) = .ok tok (9 :: rest) := by
  obtain ⟨c, cs, rfl⟩ : ∃ c cs, tok = c :: cs := by
    cases tok with
    | nil => exact absurd rfl hne
    | cons c cs => exact ⟨c, cs, rfl⟩
  have hnsp' : ∀ b ∈ c :: cs, (!goIsSpace b) = true := by
    intro b hb; simp [hnsp b hb]
  unfold scanStringF
  rw [List.cons_append,
    dropWhile_head_nonspace (hnsp c (List.mem_cons_self c cs))]
  dsimp only
  rw [← List.cons_append, List.takeWhile_append_of_pos hnsp',
    List.takeWhile_cons_of_neg (by simp [goIsSpace]),
    List.dropWhile_append_of_pos hnsp',
    List.dropWhile_cons_of_neg (by simp [goIsSpace])]
  simp

/-- `%s` at end of input: `io.EOF`, nothing assigned. -/
theorem scanStringF_nil : scanStringF [] = .eof := rfl

/-- `%s` on a whole nonempty non-space remainder reads it all. -/
theorem scanStringF_all {tok : List Nat} (hne : tok ≠ [])
    (hnsp : ∀ b ∈ tok, goIsSpace b = false) : scanStringF tok = .ok tok [] := by
  obtain ⟨c, cs, rfl⟩ : ∃ c cs, tok = c :: cs := by
    cases tok with
    | nil => exact absurd rfl hne
    | cons c cs => exact ⟨c, cs, rfl⟩
  have hnsp' : ∀ b ∈ c :: cs, (!goIsSpace b) = true := by
    intro b hb; simp [hnsp b hb]
  unfold scanStringF
  rw [dropWhile_head_nonspace (hnsp c (List.mem_cons_self c cs))]
  dsimp only
  rw [List.takeWhile_eq_self_iff.mpr hnsp', List.dropWhile_eq_nil_iff.mpr hnsp']

/-! ## Parsing the lines the writer produces -/

/-- The content of one written log line as seen by the line scanner (the
terminating newline removed). -/
def lineContent (seq etype : Nat) (key value : List Nat) : List Nat :=
  natDecimal seq ++ 9 :: (natDecimal etype ++ 9 :: (key ++ 9 :: value))

theorem formatLine_eq (seq etype : Nat) (key value : List Nat) :
    formatLine seq etype key value = lineContent seq etype key value ++ [10] := by
  simp [formatLine, lineContent]

/-- Scanning a written line whose value field is nonempty: all four verbs
succeed and every field of `e` is overwritten. -/
theorem sscanfLine_full (e : GoEvent) {s t : Nat} (hs : s < 2 ^ 64) (ht : t < 2 ^ 8)
    {k : List Nat} (hk : k ≠ []) (hknsp : ∀ b ∈ k, goIsSpace b = false)
    {v : List Nat} (hv : v ≠ []) (hvnsp : ∀ b ∈ v, goIsSpace b = false) :
    sscanfLine e (lineContent s t k v) = ⟨4, none, ⟨s, t, k, v⟩⟩ := by
  obtain ⟨tc, tcs, htc⟩ : ∃ c cs, natDecimal t = c :: cs := by
    cases h : natDecimal t with
    | nil => exact absurd h (natDecimal_ne_nil t)
    | cons c cs => exact ⟨c, cs, rfl⟩
  have htcn : goIsSpace tc = false :=
    isDigitByte_not_space (natDecimal_digits tc (htc ▸ List.mem_cons_self tc tcs))
  obtain ⟨kc, kcs, hkc⟩ : ∃ c cs, k = c :: cs := by
    cases k with
    | nil => exact absurd rfl hk
    | cons c cs => exact ⟨c, cs, rfl⟩
  obtain ⟨vc, vcs, hvc⟩ : ∃ c cs, v = c :: cs := by
    cases v with
    | nil => exact absurd rfl hv
    | cons c cs => exact ⟨c, cs, rfl⟩
  unfold sscanfLine lineContent
  rw [scanUintF_digits hs]
  dsimp only
  rw [matchTab_cons9, htc, List.cons_append, dropWhile_head_nonspace htcn,
    ← List.cons_append, ← htc]
  dsimp only
  rw [scanUintF_digits ht]
  dsimp only
  rw [matchTab_cons9, hkc, List.cons_append,
    dropWhile_head_nonspace (hknsp kc (hkc ▸ List.mem_cons_self kc kcs)),
    ← List.cons_append, ← hkc]
  dsimp only
  rw [scanStringF_token hk hknsp]
  dsimp only
  rw [matchTab_cons9, hvc,
    dropWhile_head_nonspace (hvnsp vc (hvc ▸ List.mem_cons_self vc vcs)),
    ← hvc]
  dsimp only
  rw [scanStringF_all hv hvnsp]

/-- Scanning a written line whose value field is empty (every `WriteDelete`
line, and every `WritePut` of an empty value): the final `%s` hits end of
input, `fmt.Sscanf` returns `n = 3` with `io.EOF`, and `e.Value` keeps the
value left over from the previous iteration. -/
theorem sscanfLine_emptyVal (e : GoEvent) {s t : Nat} (hs : s < 2 ^ 64)
    (ht : t < 2 ^ 8) {k : List Nat} (hk : k ≠ [])
    (hknsp : ∀ b ∈ k, goIsSpace b = false) :
    sscanfLine e (lineContent s t k []) = ⟨3, some .eof, ⟨s, t, k, e.value⟩⟩ := by
  obtain ⟨tc, tcs, htc⟩ : ∃ c cs, natDecimal t = c :: cs := by
    cases h : natDecimal t with
    | nil => exact absurd h (natDecimal_ne_nil t)
    | cons c cs => exact ⟨c, cs, rfl⟩
  have htcn : goIsSpace tc = false :=
    isDigitByte_not_space (natDecimal_digits tc (htc ▸ List.mem_cons_self tc tcs))
  obtain ⟨kc, kcs, hkc⟩ : ∃ c cs, k = c :: cs := by
    cases k with
    | nil => exact absurd rfl hk
    | cons c cs => exact ⟨c, cs, rfl⟩
  unfold sscanfLine lineContent
  rw [scanUintF_digits hs]
  dsimp only
  rw [matchTab_cons9, htc, List.cons_append, dropWhile_head_nonspace htcn,
    ← List.cons_append, ← htc]
  dsimp only
  rw [scanUintF_digits ht]
  dsimp only
  rw [matchTab_cons9, hkc, List.cons_append,
    dropWhile_head_nonspace (hknsp kc (hkc ▸ List.mem_cons_self kc kcs)),
    ← List.cons_append, ← hkc]
  dsimp only
  rw [scanStringF_token hk hknsp]
  dsimp only
  rw [matchTab_tab_nil]
  rfl

/-! ## Splitting the written file into lines -/

theorem dropCR_of_not_mem {l : List Nat} (h : 13 ∉ l) : dropCR l = l := by
  unfold dropCR
  cases hr : l.reverse with
  | nil => rfl
  | cons c t =>
    have hc : c ≠ 13 := by
      intro hc
      subst hc
      exact h (by rw [← List.mem_reverse, hr]; exact List.mem_cons_self _ _)
    dsimp only
    rw [if_neg hc]

theorem splitLinesGo_through (l1 : List Nat) (h : 10 ∉ l1) :
    ∀ rest acc, splitLinesGo (l1 ++ 10 :: rest) acc =
      dropCR (acc.reverse ++ l1) :: splitLinesGo rest [] := by
  induction l1 with
  | nil =>
    intro rest acc
    rw [List.nil_append, splitLinesGo, if_pos rfl, List.append_nil]
  | cons c l1' ih =>
    intro rest acc
    have hc : c ≠ 10 := fun hc => h (hc ▸ List.mem_cons_self c l1')
    have h' : 10 ∉ l1' := fun hm => h (List.mem_cons_of_mem _ hm)
    rw [List.cons_append, splitLinesGo, if_neg hc, ih h']
    rw [List.reverse_cons, List.append_assoc, List.singleton_append]

/-- Splitting a written line off the front of the file. -/
theorem splitLines_formatLine (seq etype : Nat) (key value : List Nat)
    (h10 : 10 ∉ lineContent seq etype key value)
    (h13 : 13 ∉ lineContent seq etype key value) (rest : List Nat) :
    splitLines (formatLine seq etype key value ++ rest) =
      lineContent seq etype key value :: splitLines rest := by
  rw [formatLine_eq, List.append_assoc, List.singleton_append]
  unfold splitLines
  rw [splitLinesGo_through _ h10, List.reverse_nil, List.nil_append,
    dropCR_of_not_mem h13]

/-- Every byte of a written line body is a digit, a TAB, a key byte or a
value byte. -/
theorem lineContent_mem {seq etype : Nat} {key value : List Nat} {b : Nat}
    (hb : b ∈ lineContent seq etype key value) :
    isDigitByte b = true ∨ b = 9 ∨ b ∈ key ∨ b ∈ value := by
  unfold lineContent at hb
  simp only [List.mem_append, List.mem_cons] at hb
  rcases hb with h | h | h | h | h | h | h
  · exact Or.inl (natDecimal_digits _ h)
  · exact Or.inr (Or.inl h)
  · exact Or.inl (natDecimal_digits _ h)
  · exact Or.inr (Or.inl h)
  · exact Or.inr (Or.inr (Or.inl h))
  · exact Or.inr (Or.inl h)
  · exact Or.inr (Or.inr (Or.inr h))

/-! ## The round trip on a fresh log file -/

/-- Admissible keys: nonempty, free of scanner space bytes and newlines. -/
def keyOK (k : List Nat) : Prop :=
  k ≠ [] ∧ ∀ b ∈ k, goIsSpace b = false ∧ b ≠ 10

/-- Admissible `Put` values for the faithful round trip: nonempty byte
strings without `%` or `+`. -/
def valOK (v : List Nat) : Prop :=
  v ≠ [] ∧ (∀ b ∈ v, b < 256) ∧ 37 ∉ v ∧ 43 ∉ v

def opOK : Op → Prop
  | .put k v => keyOK k ∧ valOK v
  | .del k => keyOK k

/-- What the replay actually produces for a written operation sequence:
sequences are gapless from the writer's counter, kinds and keys are
faithful, a `Put` replays its own value, and a `Delete` replays the value
field left in the scanner's reused `Event` — the value of the nearest
preceding `Put` (or the initial empty value). -/
def expectedReplay (i : Nat) (lastVal : List Nat) : List Op → List GoEvent
  | [] => []
  | .put k v :: rest => ⟨i + 1, eventPut, k, v⟩ :: expectedReplay (i + 1) v rest
  | .del k :: rest => ⟨i + 1, eventDelete, k, lastVal⟩ :: expectedReplay (i + 1) lastVal rest

theorem roundTrip_loop (ops : List Op) :
    ∀ (ls : Nat) (e : GoEvent),
    (∀ op ∈ ops, opOK op) →
    ls + ops.length < 2 ^ 64 →
    37 ∉ e.value → 43 ∉ e.value →
    (readLoop e ls (splitLines (runWriter ls ops).2)).1 =
        expectedReplay ls e.value ops ∧
    (readLoop e ls (splitLines (runWriter ls ops).2)).2.1 = none ∧
    (readLoop e ls (splitLines (runWriter ls ops).2)).2.2.2 = ls + ops.length := by
  induction ops with
  | nil =>
    intro ls e _ _ _ _
    simp [runWriter, splitLines, splitLinesGo, readLoop_nil, expectedReplay]
  | cons op rest ih =>
    intro ls e hops hlen h37 h43
    have hopok : opOK op := hops op (List.mem_cons_self _ _)
    have hrest : ∀ x ∈ rest, opOK x := fun x hx => hops x (List.mem_cons_of_mem _ hx)
    have hls1 : (ls + 1) % 2 ^ 64 = ls + 1 := by
      apply Nat.mod_eq_of_lt
      simp only [List.length_cons] at hlen
      omega
    have hlen' : (ls + 1) + rest.length < 2 ^ 64 := by
      simp only [List.length_cons] at hlen
      omega
    have hseq : ls + 1 < 2 ^ 64 := by omega
    cases op with
    | put k v =>
      obtain ⟨⟨hkne, hkb⟩, hvne, hvb, hv37, hv43⟩ := hopok
      have hknsp : ∀ b ∈ k, goIsSpace b = false := fun b hb => (hkb b hb).1
      have hvesc := queryEscape_no_space hvb
      have hvescnsp : ∀ b ∈ queryEscape v, goIsSpace b = false :=
        fun b hb => (hvesc b hb).1
      have hwr : runWriter ls (Op.put k v :: rest) =
          ((runWriter (ls + 1) rest).1,
            formatLine (ls + 1) eventPut k (queryEscape v) ++
              (runWriter (ls + 1) rest).2) := by
        rw [runWriter, hls1]
        rfl
      rw [hwr]
      have h10 : 10 ∉ lineContent (ls + 1) eventPut k (queryEscape v) := by
        intro hm
        rcases lineContent_mem hm with h | h | h | h
        · simp [isDigitByte] at h
        · exact absurd h (by norm_num)
        · exact absurd rfl (hkb 10 h).2
        · exact absurd rfl (hvesc 10 h).2
      have h13 : 13 ∉ lineContent (ls + 1) eventPut k (queryEscape v) := by
        intro hm
        rcases lineContent_mem hm with h | h | h | h
        · simp [isDigitByte] at h
        · exact absurd h (by norm_num)
        · exact absurd (hkb 13 h).1 (by decide)
        · exact absurd (hvesc 13 h).1 (by decide)
      rw [splitLines_formatLine _ _ _ _ h10 h13]
      rw [readLoop_cons,
        sscanfLine_full e hseq (by decide) hkne hknsp
          (queryEscape_ne_nil hvne) hvescnsp]
      dsimp only
      rw [if_neg (by simp), if_neg (by simp), if_neg (by omega)]
      rw [queryUnescape_queryEscape hvb]
      dsimp only
      obtain ⟨ih1, ih2, ih3⟩ := ih (ls + 1) ⟨ls + 1, eventPut, k, v⟩ hrest hlen' hv37 hv43
      refine ⟨?_, ?_, ?_⟩
      · rw [expectedReplay]
        simp only [List.cons.injEq]
        exact ⟨trivial, ih1⟩
      · exact ih2
      · rw [ih3]
        simp [List.length_cons]
        omega
    | del k =>
      obtain ⟨hkne, hkb⟩ := hopok
      have hknsp : ∀ b ∈ k, goIsSpace b = false := fun b hb => (hkb b hb).1
      have hwr : runWriter ls (Op.del k :: rest) =
          ((runWriter (ls + 1) rest).1,
            formatLine (ls + 1) eventDelete k [] ++ (runWriter (ls + 1) rest).2) := by
        rw [runWriter, hls1]
        rfl
      rw [hwr]
      have h10 : 10 ∉ lineContent (ls + 1) eventDelete k [] := by
        intro hm
        rcases lineContent_mem hm with h | h | h | h
        · simp [isDigitByte] at h
        · exact absurd h (by norm_num)
        · exact absurd rfl (hkb 10 h).2
        · simp at h
      have h13 : 13 ∉ lineContent (ls + 1) eventDelete k [] := by
        intro hm
        rcases lineContent_mem hm with h | h | h | h
        · simp [isDigitByte] at h
        · exact absurd h (by norm_num)
        · exact absurd (hkb 13 h).1 (by decide)
        · simp at h
      rw [splitLines_formatLine _ _ _ _ h10 h13]
      rw [readLoop_cons, sscanfLine_emptyVal e hseq (by decide) hkne hknsp]
      dsimp only
      rw [if_neg (by simp), if_neg (by simp), if_neg (by omega)]
      rw [queryUnescape_of_no_special h37 h43]
      dsimp only
      obtain ⟨ih1, ih2, ih3⟩ := ih (ls + 1) ⟨ls + 1, eventDelete, k, e.value⟩ hrest hlen' h37 h43
      refine ⟨?_, ?_, ?_⟩
      · rw [expectedReplay]
        simp only [List.cons.injEq]
        exact ⟨trivial, ih1⟩
      · exact ih2
      · rw [ih3]
        simp [List.length_cons]
        omega

instance (op : Op) : Decidable (opOK op) := by
  cases op <;> simp only [opOK, keyOK, valOK] <;> infer_instance

/-- `fmt.Sscanf` on this format returns a nil error only when all four
operands were assigned (`n = 4`); the `n < 4 && err == nil` sanity check in
`ReadEvents` is therefore unreachable. -/
theorem sscanfLine_n4 (e : GoEvent) (l : List Nat)
    (h : (sscanfLine e l).err = none) : (sscanfLine e l).n = 4 := by
  revert h
  unfold sscanfLine
  repeat' first
    | split
    | dsimp only
    | (intro h; rfl)
    | (intro h; exact absurd h (by simp))

/-! ## What the parser can put into the key field -/

theorem scanUintF_ok_rest {bound v : Nat} {l rest : List Nat}
    (h : scanUintF bound l = .ok v rest) : rest.Sublist l := by
  unfold scanUintF at h
  split at h
  · exact absurd h (by simp)
  · rename_i c cs heq
    split at h
    · exact absurd h (by simp)
    · split at h
      · exact absurd h (by simp)
      · split at h
        · exact absurd h (by simp)
        · cases h
          have s1 : ((c :: cs).dropWhile isDigitByte).Sublist (c :: cs) :=
            List.dropWhile_sublist isDigitByte
          have s2 : (l.dropWhile goIsSpace).Sublist l := List.dropWhile_sublist goIsSpace
          exact s1.trans (heq ▸ s2)

theorem matchTab_some_rest {l rest : List Nat} (h : matchTab l = some rest) :
    rest.Sublist l := by
  unfold matchTab at h
  split at h
  · cases h; exact List.nil_sublist _
  · split at h
    · cases h; exact List.dropWhile_sublist goIsSpace
    · exact absurd h (by simp)

theorem dropWhile_head_false {p : Nat → Bool} {l cs : List Nat} {c : Nat}
    (h : l.dropWhile p = c :: cs) : p c = false := by
  induction l with
  | nil => simp at h
  | cons a as ih =>
    rw [List.dropWhile_cons] at h
    split at h
    · exact ih h
    · cases h
      rename_i hpa
      simpa using hpa

theorem scanStringF_ok {l tok rest : List Nat} (h : scanStringF l = .ok tok rest) :
    tok ≠ [] ∧ ∀ b ∈ tok, goIsSpace b = false ∧ b ∈ l := by
  unfold scanStringF at h
  split at h
  · exact absurd h (by simp)
  · rename_i c cs heq
    cases h
    have hc : goIsSpace c = false := dropWhile_head_false heq
    constructor
    · rw [List.takeWhile_cons_of_pos (by simp [hc])]
      simp
    · intro b hb
      refine ⟨by simpa using List.mem_takeWhile_imp hb, ?_⟩
      have s1 : ((c :: cs).takeWhile (fun x => !goIsSpace x)).Sublist (c :: cs) :=
        List.takeWhile_sublist _
      have s2 : (l.dropWhile goIsSpace).Sublist l := List.dropWhile_sublist goIsSpace
      exact (heq ▸ s2).subset (s1.subset hb)

/-- Every key field `fmt.Sscanf` writes is a nonempty space-free token of
the line; on a partial scan the key keeps its previous contents. -/
theorem sscanfLine_key (e : GoEvent) (line : List Nat) :
    (sscanfLine e line).e.key = e.key ∨
    ((sscanfLine e line).e.key ≠ [] ∧
      ∀ b ∈ (sscanfLine e line).e.key, goIsSpace b = false ∧ b ∈ line) := by
  unfold sscanfLine
  cases h1 : scanUintF (2 ^ 64) line with
  | eof => left; rfl
  | fail => left; rfl
  | ok seq l1 =>
    dsimp only
    cases h2 : matchTab l1 with
    | none => left; rfl
    | some l2 =>
      dsimp only
      cases h3 : scanUintF (2 ^ 8) l2 with
      | eof => left; rfl
      | fail => left; rfl
      | ok et l3 =>
        dsimp only
        cases h4 : matchTab l3 with
        | none => left; rfl
        | some l4 =>
          dsimp only
          cases h5 : scanStringF l4 with
          | eof => left; rfl
          | fail => left; rfl
          | ok k l5 =>
            dsimp only
            obtain ⟨hkne, hkb⟩ := scanStringF_ok h5
            have hmem : ∀ b ∈ k, goIsSpace b = false ∧ b ∈ line := by
              intro b hb
              refine ⟨(hkb b hb).1, ?_⟩
              have hb4 : b ∈ l4 := (hkb b hb).2
              have hb3 : b ∈ l3 := (matchTab_some_rest h4).subset hb4
              have hb2 : b ∈ l2 := (scanUintF_ok_rest h3).subset hb3
              have hb1 : b ∈ l1 := (matchTab_some_rest h2).subset hb2
              exact (scanUintF_ok_rest h1).subset hb1
            cases h6 : matchTab l5 with
            | none => right; exact ⟨hkne, hmem⟩
            | some l6 =>
              dsimp only
              cases h7 : scanStringF l6 with
              | eof => right; exact ⟨hkne, hmem⟩
              | fail => right; exact ⟨hkne, hmem⟩
              | ok v l7 => right; exact ⟨hkne, hmem⟩

/-- Every event the replay loop emits carries a key free of space bytes
and newlines, provided the lines are newline-free (as `bufio.Scanner`
guarantees) and the reused `Event` starts with such a key. -/
theorem readLoop_keys_plain (lines : List (List Nat)) :
    ∀ (e : GoEvent) (ls : Nat),
    (∀ line ∈ lines, (10 : Nat) ∉ line) →
    (∀ b ∈ e.key, goIsSpace b = false ∧ b ≠ 10) →
    ∀ ev ∈ (readLoop e ls lines).1, ∀ b ∈ ev.key, goIsSpace b = false ∧ b ≠ 10 := by
  induction lines with
  | nil => intro e ls _ _ ev hev; simp [readLoop_nil] at hev
  | cons line rest ih =>
    intro e ls hl he ev hev
    have hline : (10 : Nat) ∉ line := hl line (List.mem_cons_self _ _)
    have hrest : ∀ l ∈ rest, (10 : Nat) ∉ l := fun l h => hl l (List.mem_cons_of_mem _ h)
    have hkey : ∀ b ∈ (sscanfLine e line).e.key, goIsSpace b = false ∧ b ≠ 10 := by
      rcases sscanfLine_key e line with hk | ⟨_, hk⟩
      · rw [hk]; exact he
      · intro b hb
        obtain ⟨h1, h2⟩ := hk b hb
        exact ⟨h1, fun hc => hline (hc ▸ h2)⟩
    rw [readLoop_cons] at hev
    by_cases g1 : (sscanfLine e line).err = some .fail
    · simp [g1] at hev
    · by_cases g2 : (sscanfLine e line).err = none ∧ (sscanfLine e line).n < 4
      · simp [g1, g2] at hev
      · by_cases g3 : (sscanfLine e line).e.sequence ≤ ls
        · simp [g1, g2, g3] at hev
        · simp only [g1, g2, g3, if_false, if_neg] at hev
          cases hu : queryUnescape (sscanfLine e line).e.value with
          | none => rw [hu] at hev; simp at hev
          | some uv =>
            rw [hu] at hev
            dsimp only at hev
            rcases List.mem_cons.mp hev with rfl | hev'
            · exact hkey
            · exact ih ⟨(sscanfLine e line).e.sequence, (sscanfLine e line).e.eventType,
                (sscanfLine e line).e.key, uv⟩ (sscanfLine e line).e.sequence
                hrest hkey ev hev'

/-- Lines produced by the line splitter never contain a newline byte. -/
theorem splitLinesGo_no10 : ∀ (bs acc : List Nat), (10 : Nat) ∉ acc →
    ∀ line ∈ splitLinesGo bs acc, (10 : Nat) ∉ line := by
  have hdropCR : ∀ l : List Nat, (10 : Nat) ∉ l → (10 : Nat) ∉ dropCR l := by
    intro l h
    unfold dropCR
    split
    · rename_i c t hr
      split
      · intro hm
        apply h
        rw [← List.mem_reverse, hr]
        have hm' : (10 : Nat) ∈ t := by rwa [List.mem_reverse] at hm
        exact List.mem_cons_of_mem _ hm'
      · exact h
    · exact h
  intro bs
  induction bs with
  | nil =>
    intro acc hacc line hline
    unfold splitLinesGo at hline
    split at hline
    · simp at hline
    · simp only [List.mem_singleton] at hline
      subst hline
      exact hdropCR _ (by simpa using hacc)
  | cons c rest ih =>
    intro acc hacc line hline
    unfold splitLinesGo at hline
    split at hline
    · rename_i hc
      rcases List.mem_cons.mp hline with rfl | h
      · exact hdropCR _ (by simpa using hacc)
      · exact ih [] (by simp) line h
    · rename_i hc
      refine ih (c :: acc) ?_ line hline
      intro hm
      rcases List.mem_cons.mp hm with rfl | h
      · exact hc rfl
      · exact hacc h

theorem splitLines_no10 (bs : List Nat) : ∀ line ∈ splitLines bs, (10 : Nat) ∉ line :=
  splitLinesGo_no10 bs [] (by simp)

/-! ## Table replay facts -/

theorem sqliteReadRows_mem_id (rows : List TableRow) :
    ∀ ev ∈ (sqliteReadRows rows).1, ev.sequence ∈ rows.map (fun r => r.id) := by
  induction rows with
  | nil => intro ev hev; simp [sqliteReadRows] at hev
  | cons r rest ih =>
    intro ev hev
    unfold sqliteReadRows at hev
    cases hu : queryUnescape r.value with
    | none => rw [hu] at hev; simp at hev
    | some uv =>
      rw [hu] at hev
      dsimp only at hev
      rcases List.mem_cons.mp hev with rfl | h
      · simp
      · simp only [List.map_cons, List.mem_cons]
        exact Or.inr (ih ev h)

theorem sqliteReadRows_chain (rows : List TableRow)
    (h : List.Pairwise (· < ·) (rows.map (fun r => r.id))) :
    List.Chain' (fun a b => a.sequence < b.sequence) (sqliteReadRows rows).1 := by
  induction rows with
  | nil => simp [sqliteReadRows]
  | cons r rest ih =>
    simp only [List.map_cons, List.pairwise_cons] at h
    unfold sqliteReadRows
    cases hu : queryUnescape r.value with
    | none => simp
    | some uv =>
      dsimp only
      refine List.chain'_cons'.mpr ⟨?_, ih h.2⟩
      intro b hb
      have hbmem := sqliteReadRows_mem_id rest b (List.mem_of_mem_head? hb)
      exact h.1 b.sequence hbmem

/-! ## SQLite writer-loop facts -/

/-- The durable fields of the loop state (table and `lastSequence`) do not
depend on the `WaitGroup` or error counters. -/
theorem sqliteRunLoop_state_indep (evs : List (GoEvent × Bool)) :
    ∀ (t : TableState) (l p er p' er' : Nat),
    (sqliteRunLoop ⟨t, l, p, er⟩ evs).table = (sqliteRunLoop ⟨t, l, p', er'⟩ evs).table ∧
    (sqliteRunLoop ⟨t, l, p, er⟩ evs).lastSequence =
      (sqliteRunLoop ⟨t, l, p', er'⟩ evs).lastSequence := by
  induction evs with
  | nil => intro t l p er p' er'; exact ⟨rfl, rfl⟩
  | cons pr rest ih =>
    intro t l p er p' er'
    obtain ⟨ev, okFlag⟩ := pr
    cases okFlag with
    | true => exact ih _ _ _ _ _ _
    | false => exact ih _ _ _ _ _ _

/-! ## Migration facts -/

/-- Unfolding the migration fold: events are appended in order with
auto-increment ids, counting one row per `Put`/`Delete` event. -/
theorem foldl_migrateStep (evs : List GoEvent)
    (htypes : ∀ ev ∈ evs, ev.eventType = eventPut ∨ ev.eventType = eventDelete) :
    ∀ st : TableState,
    evs.foldl migrateStep st =
      ⟨st.rows ++ importRows st.seqCounter evs, st.seqCounter + evs.length⟩ := by
  induction evs with
  | nil => intro st; simp [importRows]
  | cons ev rest ih =>
    intro st
    have hrest : ∀ x ∈ rest, x.eventType = eventPut ∨ x.eventType = eventDelete :=
      fun x hx => htypes x (List.mem_cons_of_mem _ hx)
    rcases htypes ev (List.mem_cons_self _ _) with hty | hty
    · rw [List.foldl_cons,
        show migrateStep st ev =
          ⟨st.rows ++ [⟨st.seqCounter + 1, eventPut, ev.key, queryEscape ev.value⟩],
            st.seqCounter + 1⟩ by simp [migrateStep, hty, tableInsert],
        ih hrest]
      rw [importRows, if_pos hty]
      simp [List.append_assoc, List.length_cons]
      omega
    · have hne : ev.eventType ≠ eventPut := by
        rw [hty]; simp [eventPut, eventDelete]
      rw [List.foldl_cons,
        show migrateStep st ev =
          ⟨st.rows ++ [⟨st.seqCounter + 1, eventDelete, ev.key, []⟩],
            st.seqCounter + 1⟩ by simp [migrateStep, hty, hne, tableInsert, eventPut, eventDelete],
        ih hrest]
      rw [importRows, if_neg hne, if_pos hty]
      simp [List.append_assoc, List.length_cons]
      omega

/-- The events a table replay produces from the rows the migration wrote:
same kinds and keys, `Put` values restored, `Delete` values empty. -/
def importedEvents (c : Nat) : List GoEvent → List GoEvent
  | [] => []
  | ev :: rest =>
    if ev.eventType = eventPut then
      ⟨c + 1, eventPut, ev.key, ev.value⟩ :: importedEvents (c + 1) rest
    else if ev.eventType = eventDelete then
      ⟨c + 1, eventDelete, ev.key, []⟩ :: importedEvents (c + 1) rest
    else importedEvents c rest

theorem sqliteReadRows_importRows (evs : List GoEvent)
    (hbytes : ∀ ev ∈ evs, ∀ b ∈ ev.value, b < 256) :
    ∀ c : Nat, sqliteReadRows (importRows c evs) = (importedEvents c evs, none) := by
  induction evs with
  | nil => intro c; rfl
  | cons ev rest ih =>
    intro c
    have hbrest : ∀ x ∈ rest, ∀ b ∈ x.value, b < 256 :=
      fun x hx => hbytes x (List.mem_cons_of_mem _ hx)
    by_cases hty : ev.eventType = eventPut
    · rw [importRows, if_pos hty, sqliteReadRows,
        queryUnescape_queryEscape (hbytes ev (List.mem_cons_self _ _))]
      dsimp only
      rw [ih hbrest, importedEvents, if_pos hty]
    · by_cases htyd : ev.eventType = eventDelete
      · rw [importRows, if_neg hty, if_pos htyd, sqliteReadRows]
        rw [show queryUnescape [] = some [] from rfl]
        dsimp only
        rw [ih hbrest, importedEvents, if_neg hty, if_pos htyd]
      · rw [importRows, if_neg hty, if_neg htyd, ih hbrest,
          importedEvents, if_neg hty, if_neg htyd]

theorem importedEvents_fields (evs : List GoEvent)
    (htypes : ∀ ev ∈ evs, ev.eventType = eventPut ∨ ev.eventType = eventDelete) :
    ∀ c : Nat,
    (importedEvents c evs).map (fun x => (x.eventType, x.key)) =
      evs.map (fun x => (x.eventType, x.key)) ∧
    (importedEvents c evs).map (fun x => x.value) =
      evs.map (fun x => if x.eventType = eventPut then x.value else []) ∧
    (importedEvents c evs).map (fun x => x.sequence) =
      List.range' (c + 1) evs.length := by
  induction evs with
  | nil => intro c; simp [importedEvents]
  | cons ev rest ih =>
    intro c
    have hrest : ∀ x ∈ rest, x.eventType = eventPut ∨ x.eventType = eventDelete :=
      fun x hx => htypes x (List.mem_cons_of_mem _ hx)
    obtain ⟨ih1, ih2, ih3⟩ := ih hrest (c + 1)
    rcases htypes ev (List.mem_cons_self _ _) with hty | hty
    · rw [importedEvents, if_pos hty]
      refine ⟨?_, ?_, ?_⟩
      · simp only [List.map_cons, ih1, hty]
      · simp [List.map_cons, ih2, hty]
      · simp only [List.map_cons, ih3, List.length_cons, List.range'_succ]
    · have hne : ev.eventType ≠ eventPut := by
        rw [hty]; simp [eventPut, eventDelete]
      rw [importedEvents, if_neg hne, if_pos hty]
      refine ⟨?_, ?_, ?_⟩
      · simp only [List.map_cons, ih1, hty]
      · simp [List.map_cons, ih2, hne]
      · simp only [List.map_cons, ih3, List.length_cons, List.range'_succ]

/-- Key of a write call. -/
def opKey : Op → List Nat
  | .put k _ => k
  | .del k => k

/-! # The claims -/

/-- C8: escaping round-trip — for every byte string, including tabs,
newlines, percent signs and other control bytes,
`url.QueryUnescape (url.QueryEscape value)` returns the original value with
no error. -/
theorem claim_C8 (s : List Nat) (h : ∀ b ∈ s, b < 256) :
    queryUnescape (queryEscape s) = some s := queryUnescape_queryEscape h

theorem claim_C8_witness :
    (∀ b ∈ ([104, 9, 10, 37, 43, 32, 38] : List Nat), b < 256) ∧
    queryUnescape (queryEscape [104, 9, 10, 37, 43, 32, 38]) =
      some [104, 9, 10, 37, 43, 32, 38] :=
  ⟨by decide, claim_C8 _ (by decide)⟩

/-- C2: out-of-order detection — when a scanned line parses (no hard
`Sscanf` error) with a sequence number at most the reader's running
`lastSequence`, replay stops at that line with the
"transaction numbers out of sequence" error: the events emitted for the
preceding lines stand, and no event is emitted for the bad line or any
later line. -/
theorem claim_C2 (pre post : List (List Nat)) (bad : List Nat) (ls0 : Nat)
    (evs : List GoEvent) (e1 : GoEvent) (ls1 : Nat)
    (hpre : readEvents ls0 pre = (evs, none, e1, ls1))
    (hparse : (sscanfLine e1 bad).err ≠ some .fail)
    (hlow : (sscanfLine e1 bad).e.sequence ≤ ls1) :
    readEvents ls0 (pre ++ bad :: post) =
      (evs, some .outOfSequence, (sscanfLine e1 bad).e, ls1) := by
  unfold readEvents at hpre ⊢
  rw [readLoop_append, hpre]
  dsimp only
  rw [readLoop_cons]
  dsimp only
  have hg2 : ¬((sscanfLine e1 bad).err = none ∧ (sscanfLine e1 bad).n < 4) :=
    fun hc => absurd (sscanfLine_n4 _ _ hc.1) (by omega)
  rw [if_neg hparse, if_neg hg2, if_pos hlow]
  simp

theorem claim_C2_witness :
    readEvents 0 ([[49, 9, 50, 9, 107, 9, 120]] ++ [49, 9, 50, 9, 107, 9, 120] :: []) =
      ([⟨1, 2, [107], [120]⟩], some .outOfSequence,
        (sscanfLine ⟨1, 2, [107], [120]⟩ [49, 9, 50, 9, 107, 9, 120]).e, 1) :=
  claim_C2 [[49, 9, 50, 9, 107, 9, 120]] [] [49, 9, 50, 9, 107, 9, 120] 0
    [⟨1, 2, [107], [120]⟩] ⟨1, 2, [107], [120]⟩ 1 (by decide) (by decide) (by decide)

/-- C3 counterexample: a crafted file with sequences 1 and 3 replays with
no error — the file reader checks only strict increase, so a successful
file replay need not be gapless, contradicting the claim's gapless part. -/
theorem claim_C3_counterexample :
    (readEvents 0 [[49, 9, 50, 9, 107, 9, 120], [51, 9, 50, 9, 107, 9, 121]]).2.1 =
      none ∧
    ((readEvents 0 [[49, 9, 50, 9, 107, 9, 120], [51, 9, 50, 9, 107, 9, 121]]).1.map
      (fun ev => ev.sequence)) = [1, 3] ∧
    ¬ (3 : Nat) = 1 + 1 := by decide

/-- C3 amended: on both backends, every replay emits events with strictly
increasing adjacent sequence numbers; the file backend does not enforce
gaplessness during replay (the gapless shape of writer-produced logs comes
from the writer, see C1's amended round trip, not from `ReadEvents`). -/
theorem claim_C3_amended :
    (∀ (ls : Nat) (lines : List (List Nat)),
      List.Chain' (fun a b => a.sequence < b.sequence) (readEvents ls lines).1) ∧
    (∀ st : TableState, TableWF st →
      List.Chain' (fun a b => a.sequence < b.sequence) (sqliteReadRows st.rows).1) := by
  constructor
  · intro ls lines
    exact (readLoop_seq_facts lines initEvent ls).2.1
  · intro st hwf
    exact sqliteReadRows_chain st.rows (List.chain'_iff_pairwise.mp hwf.1)

theorem claim_C3_witness :
    List.Chain' (fun a b => a.sequence < b.sequence)
      (sqliteReadRows (TableState.mk [⟨1, 2, [107], []⟩, ⟨3, 2, [108], []⟩] 3).rows).1 :=
  claim_C3_amended.2 (TableState.mk [⟨1, 2, [107], []⟩, ⟨3, 2, [108], []⟩] 3)
    (by
      unfold TableWF
      refine ⟨?_, by decide⟩
      simp only [List.map_cons, List.map_nil]
      exact List.chain'_cons.mpr ⟨by norm_num, List.chain'_singleton _⟩)

/-- C4 counterexample: the line `"1\t2\tk"` has only three fields, yet
replay does not abort — `fmt.Sscanf` returns `io.EOF`, the `n < 4` check is
guarded by `err == nil`, and an event (with the stale value field) is
emitted and the stream ends cleanly. -/
theorem claim_C4_counterexample :
    (readEvents 0 [[49, 9, 50, 9, 107]]).1 = [⟨1, 2, [107], []⟩] ∧
    (readEvents 0 [[49, 9, 50, 9, 107]]).2.1 = none := by decide

/-- C4 amended: a line on which `fmt.Sscanf` reports a hard error (not
`io.EOF`) aborts the stream at once with the parse error and emits nothing
for it or any later line, and a line whose (possibly inherited) value field
fails to URL-unescape aborts likewise with the decode error; but a line
where the input ends cleanly before all four fields (`io.EOF`) is accepted,
the missing fields inheriting the previous record's contents. -/
theorem claim_C4_amended (e1 : GoEvent) (ls : Nat) (line : List Nat)
    (post : List (List Nat)) :
    ((sscanfLine e1 line).err = some .fail →
      readLoop e1 ls (line :: post) = ([], some .parseFail, (sscanfLine e1 line).e, ls)) ∧
    ((sscanfLine e1 line).err ≠ some .fail →
      ls < (sscanfLine e1 line).e.sequence →
      queryUnescape (sscanfLine e1 line).e.value = none →
      readLoop e1 ls (line :: post) = ([], some .decodeFail, (sscanfLine e1 line).e, ls)) := by
  constructor
  · intro h
    rw [readLoop_cons]
    dsimp only
    rw [if_pos h]
  · intro h1 h2 h3
    rw [readLoop_cons]
    dsimp only
    have hg2 : ¬((sscanfLine e1 line).err = none ∧ (sscanfLine e1 line).n < 4) :=
      fun hc => absurd (sscanfLine_n4 _ _ hc.1) (by omega)
    rw [if_neg h1, if_neg hg2, if_neg (by omega), h3]

theorem claim_C4_witness :
    readLoop initEvent 0 [[120]] = ([], some .parseFail, initEvent, 0) ∧
    readLoop initEvent 0 [[49, 9, 50, 9, 107, 9, 37, 122, 122]] =
      ([], some .decodeFail, ⟨1, 2, [107], [37, 122, 122]⟩, 0) := by
  constructor
  · exact (claim_C4_amended initEvent 0 [120] []).1 (by decide)
  · exact (claim_C4_amended initEvent 0 [49, 9, 50, 9, 107, 9, 37, 122, 122] []).2
      (by decide) (by decide) (by decide)

/-- C1 counterexample: the claim's own example.  Because `fmt.Sscanf`
leaves unassigned operands untouched and `ReadEvents` reuses one `Event`
variable, the Delete line (whose value field is empty on disk) replays
carrying the previous line's value `"2"`, not the empty value. -/
theorem claim_C1_counterexample :
    (roundTrip [.put [97] [49], .put [97] [50], .del [97]]).1 =
      [⟨1, 2, [97], [49]⟩, ⟨2, 2, [97], [50]⟩, ⟨3, 1, [97], [50]⟩] ∧
    (roundTrip [.put [97] [49], .put [97] [50], .del [97]]).2.1 = none ∧
    ¬ ([⟨1, 2, [97], [49]⟩, ⟨2, 2, [97], [50]⟩, ⟨3, 1, [97], [50]⟩] : List GoEvent) =
      [⟨1, 2, [97], [49]⟩, ⟨2, 2, [97], [50]⟩, ⟨3, 1, [97], []⟩] := by decide

/-- C1 amended: for whitespace-free nonempty keys and nonempty `%`/`+`-free
values, replaying a freshly written log reproduces the written operations
in order with gapless sequences 1..n, exact kinds and keys, and exact `Put`
values; a replayed `Delete`, however, carries the value of the nearest
preceding `Put` (empty only if none precedes it), not always the empty
value. -/
theorem claim_C1_amended (ops : List Op) (hops : ∀ op ∈ ops, opOK op)
    (hlen : ops.length < 2 ^ 64) :
    (roundTrip ops).1 = expectedReplay 0 [] ops ∧ (roundTrip ops).2.1 = none := by
  have h := roundTrip_loop ops 0 initEvent hops (by omega)
    (by simp [initEvent]) (by simp [initEvent])
  exact ⟨h.1, h.2.1⟩

theorem claim_C1_witness :
    (roundTrip [.put [97] [49], .put [97] [50], .del [97]]).1 =
      expectedReplay 0 [] [.put [97] [49], .put [97] [50], .del [97]] ∧
    (roundTrip [.put [97] [49], .put [97] [50], .del [97]]).2.1 = none :=
  claim_C1_amended [.put [97] [49], .put [97] [50], .del [97]] (by decide) (by decide)

/-- C5 counterexample: migrating the log of `Put(a,"1")`, `Delete(a)` —
the file replay's Delete event carries the stale value `"1"`, but
`WriteDelete` submits only the key, so the Delete's table row stores the
empty value: the replayed event's value is not preserved by migration. -/
theorem claim_C5_counterexample :
    (readEvents 0 (splitLines (runWriter 0 [.put [97] [49], .del [97]]).2)).1 =
      [⟨1, 2, [97], [49]⟩, ⟨2, 1, [97], [49]⟩] ∧
    migrateFileToSQLite true (runWriter 0 [.put [97] [49], .del [97]]).2 emptyTable =
      some (⟨[⟨1, 2, [97], [49]⟩, ⟨2, 1, [97], []⟩], 2⟩, true) ∧
    ¬ ([] : List Nat) = [49] := by decide

/-- C5 amended: with the destination table nonempty the migration imports
nothing and leaves the file untouched; with it empty and the file replay
error-free, every replayed event becomes one table row in order with
table-assigned sequences, preserving kind and key for all events and the
value for `Put` events (a `Delete` row is written with an empty value,
dropping the stale value field file replay attaches to Deletes); the file
is renamed, never deleted, so a second run imports nothing. -/
theorem claim_C5_amended (fb : List Nat) (st : TableState) (evs : List GoEvent)
    (e' : GoEvent) (n' : Nat)
    (hempty : st.rows = [])
    (hreplay : readEvents 0 (splitLines fb) = (evs, none, e', n'))
    (htypes : ∀ ev ∈ evs, ev.eventType = eventPut ∨ ev.eventType = eventDelete)
    (hbytes : ∀ ev ∈ evs, ∀ b ∈ ev.value, b < 256) :
    (∀ (fb2 : List Nat) (st2 : TableState), 0 < st2.rows.length →
      migrateFileToSQLite true fb2 st2 = some (st2, false)) ∧
    migrateFileToSQLite true fb st =
      some (⟨importRows st.seqCounter evs, st.seqCounter + evs.length⟩, true) ∧
    sqliteReadRows (importRows st.seqCounter evs) =
      (importedEvents st.seqCounter evs, none) ∧
    (importedEvents st.seqCounter evs).map (fun x => (x.eventType, x.key)) =
      evs.map (fun x => (x.eventType, x.key)) ∧
    (importedEvents st.seqCounter evs).map (fun x => x.value) =
      evs.map (fun x => if x.eventType = eventPut then x.value else []) ∧
    (importedEvents st.seqCounter evs).map (fun x => x.sequence) =
      List.range' (st.seqCounter + 1) evs.length ∧
    (∀ (bs : List Nat) (st2 : TableState),
      migrateFileToSQLite false bs st2 = some (st2, false)) := by
  obtain ⟨f1, f2, f3⟩ := importedEvents_fields evs htypes st.seqCounter
  refine ⟨?_, ?_, sqliteReadRows_importRows evs hbytes st.seqCounter, f1, f2, f3, ?_⟩
  · intro fb2 st2 h
    unfold migrateFileToSQLite
    rw [if_neg (by simp), if_pos h]
  · unfold migrateFileToSQLite
    rw [if_neg (by simp), if_neg (by simp [hempty]), hreplay]
    dsimp only
    rw [foldl_migrateStep evs htypes st, hempty]
    simp
  · intro bs st2
    rfl

theorem claim_C5_witness :
    migrateFileToSQLite true (runWriter 0 [.put [97] [49], .del [97]]).2 emptyTable =
      some (⟨importRows emptyTable.seqCounter
          [⟨1, 2, [97], [49]⟩, ⟨2, 1, [97], [49]⟩],
        emptyTable.seqCounter +
          ([⟨1, 2, [97], [49]⟩, ⟨2, 1, [97], [49]⟩] : List GoEvent).length⟩, true) :=
  (claim_C5_amended (runWriter 0 [.put [97] [49], .del [97]]).2 emptyTable
    [⟨1, 2, [97], [49]⟩, ⟨2, 1, [97], [49]⟩] ⟨2, 1, [97], [49]⟩ 2
    (by decide) (by decide) (by decide) (by decide)).2.1

/-- C6: for every event drained by the SQLite writer loop the completion is
signalled (the pending count drops by one per event, so `Wait()` cannot
block forever), every failed insert delivers exactly one error on the error
channel while leaving the table and `lastSequence` exactly as if the failed
events had not occurred, the loop keeps processing subsequent events, and a
successful insert sets `lastSequence` to the storage-assigned id. -/
theorem claim_C6 (evs : List (GoEvent × Bool)) : ∀ st : SqliteLoopState,
    (sqliteRunLoop st evs).pending = st.pending - evs.length ∧
    (sqliteRunLoop st evs).errorsSent =
      st.errorsSent + (evs.filter (fun p => !p.2)).length ∧
    (sqliteRunLoop st evs).table =
      (sqliteRunLoop st (evs.filter (fun p => p.2))).table ∧
    (sqliteRunLoop st evs).lastSequence =
      (sqliteRunLoop st (evs.filter (fun p => p.2))).lastSequence ∧
    (sqliteRunLoop st evs).lastSequence =
      (if evs.any (fun p => p.2) then (sqliteRunLoop st evs).table.seqCounter
       else st.lastSequence) := by
  induction evs with
  | nil => intro st; simp [sqliteRunLoop]
  | cons pr rest ih =>
    intro st
    obtain ⟨t, l, p, er⟩ := st
    obtain ⟨ev, okFlag⟩ := pr
    cases okFlag with
    | true =>
      have hstep : sqliteRunLoop ⟨t, l, p, er⟩ ((ev, true) :: rest) =
          sqliteRunLoop ⟨(tableInsert t ev.eventType ev.key ev.value).1,
            (tableInsert t ev.eventType ev.key ev.value).2, p - 1, er⟩ rest := rfl
      have hfilter : ((ev, true) :: rest).filter (fun p => p.2) =
          (ev, true) :: rest.filter (fun p => p.2) := by simp
      obtain ⟨ihA, ihB, ihC, ihD, ihE⟩ :=
        ih ⟨(tableInsert t ev.eventType ev.key ev.value).1,
          (tableInsert t ev.eventType ev.key ev.value).2, p - 1, er⟩
      refine ⟨?_, ?_, ?_, ?_, ?_⟩
      · rw [hstep, ihA]
        simp only [List.length_cons]
        omega
      · rw [hstep, ihB]
        simp
      · rw [hstep, hfilter, ihC]
        rfl
      · rw [hstep, hfilter, ihD]
        rfl
      · rw [hstep]
        have hany : ((ev, true) :: rest).any (fun p => p.2) = true := by simp
        rw [hany, if_pos rfl]
        by_cases hr : rest.any (fun p => p.2) = true
        · rw [ihE, if_pos hr]
        · have hrf : rest.filter (fun p => p.2) = [] := by
            rw [List.filter_eq_nil_iff]
            intro x hx
            simp only [Bool.not_eq_true]
            exact (Bool.not_eq_true _).mp (fun hc => hr (List.any_eq_true.mpr ⟨x, hx, hc⟩))
          rw [ihE, if_neg hr, ihC, hrf]
          rfl
    | false =>
      have hstep : sqliteRunLoop ⟨t, l, p, er⟩ ((ev, false) :: rest) =
          sqliteRunLoop ⟨t, l, p - 1, er + 1⟩ rest := rfl
      have hfilter : ((ev, false) :: rest).filter (fun p => p.2) =
          rest.filter (fun p => p.2) := by simp
      obtain ⟨ihA, ihB, ihC, ihD, ihE⟩ := ih ⟨t, l, p - 1, er + 1⟩
      obtain ⟨indT, indL⟩ := sqliteRunLoop_state_indep
        (rest.filter (fun p => p.2)) t l (p - 1) (er + 1) p er
      refine ⟨?_, ?_, ?_, ?_, ?_⟩
      · rw [hstep, ihA]
        simp only [List.length_cons]
        omega
      · rw [hstep, ihB]
        simp only [List.filter_cons]
        simp
        omega
      · rw [hstep, hfilter, ihC, indT]
      · rw [hstep, hfilter, ihD, indL]
      · rw [hstep]
        have hany : ((ev, false) :: rest).any (fun p => p.2) = rest.any (fun p => p.2) := by
          simp
        rw [hany]
        exact ihE

/-- C7 counterexample: `WritePut("k", "a b")` on the SQLite backend stores
the URL-escaped form `"a+b"` in the value column, not the caller's string. -/
theorem claim_C7_counterexample :
    sqliteWriteOp emptyTable (.put [107] [97, 32, 98]) =
      ⟨[⟨1, 2, [107], [97, 43, 98]⟩], 1⟩ ∧
    ¬ ([97, 43, 98] : List Nat) = [97, 32, 98] := by decide

/-- C7 amended: the SQLite backend stores the URL-escaped form of the
caller-supplied value in the value column (exactly as the file backend
escapes its value field), and its `ReadEvents` unescapes it, so the
caller's value is restored verbatim on replay. -/
theorem claim_C7_amended (st : TableState) (k v : List Nat)
    (hv : ∀ b ∈ v, b < 256) :
    sqliteWriteOp st (.put k v) =
      ⟨st.rows ++ [⟨st.seqCounter + 1, eventPut, k, queryEscape v⟩],
        st.seqCounter + 1⟩ ∧
    sqliteReadRows [⟨st.seqCounter + 1, eventPut, k, queryEscape v⟩] =
      ([⟨st.seqCounter + 1, eventPut, k, v⟩], none) := by
  refine ⟨rfl, ?_⟩
  unfold sqliteReadRows
  rw [queryUnescape_queryEscape hv]
  rfl

theorem claim_C7_witness :
    sqliteWriteOp emptyTable (.put [107] [97, 32, 98]) =
      ⟨emptyTable.rows ++
        [⟨emptyTable.seqCounter + 1, eventPut, [107], queryEscape [97, 32, 98]⟩],
        emptyTable.seqCounter + 1⟩ ∧
    sqliteReadRows
        [⟨emptyTable.seqCounter + 1, eventPut, [107], queryEscape [97, 32, 98]⟩] =
      ([⟨emptyTable.seqCounter + 1, eventPut, [107], [97, 32, 98]⟩], none) :=
  claim_C7_amended emptyTable [107] [97, 32, 98] (by decide)

/-- C9 counterexample: `NewTransactionLogger` does not read the file, so a
logger opened on a non-empty file that calls `Run()` without replaying
assigns its first write sequence 1 — not strictly greater than the highest
sequence (1) already persisted in the file. -/
theorem claim_C9_counterexample :
    ((readEvents 0 (splitLines (runWriter 0 [.put [97] [49]]).2)).1.map
      (fun ev => ev.sequence)) = [1] ∧
    (runWriter 0 [.put [98] [50]]).2 =
      formatLine 1 eventPut [98] (queryEscape [50]) ∧
    ¬ (1 : Nat) > 1 := by decide

/-- C9 amended: each accepted event is assigned `lastSequence + 1` (as a
`uint64`) and appended as one formatted line, with the counter starting at
0 on a fresh logger instance; when a full successful replay has been
consumed on that instance before `Run()`, the first event written is
assigned a sequence strictly greater than every sequence persisted in the
file — without such a replay the counter restarts at 0 regardless of the
file's contents. -/
theorem claim_C9_amended (lines : List (List Nat)) (op : Op) (more : List Op)
    (_hok : (readEvents 0 lines).2.1 = none)
    (hbound : (readEvents 0 lines).2.2.2 + 1 < 2 ^ 64) :
    (runWriter (readEvents 0 lines).2.2.2 (op :: more)).2 =
      formatLine ((readEvents 0 lines).2.2.2 + 1) (opEvent op).eventType
        (opEvent op).key (opEvent op).value ++
        (runWriter ((readEvents 0 lines).2.2.2 + 1) more).2 ∧
    ∀ ev ∈ (readEvents 0 lines).1,
      ev.sequence < (readEvents 0 lines).2.2.2 + 1 := by
  constructor
  · rw [runWriter]
    dsimp only
    rw [Nat.mod_eq_of_lt hbound]
  · intro ev hev
    have h := (readLoop_seq_facts lines initEvent 0).1 ev hev
    show ev.sequence < (readLoop initEvent 0 lines).2.2.2 + 1
    omega

theorem claim_C9_witness :
    (runWriter (readEvents 0 [[49, 9, 50, 9, 97, 9, 49]]).2.2.2
        (Op.put [98] [50] :: [])).2 =
      formatLine ((readEvents 0 [[49, 9, 50, 9, 97, 9, 49]]).2.2.2 + 1)
        (opEvent (Op.put [98] [50])).eventType (opEvent (Op.put [98] [50])).key
        (opEvent (Op.put [98] [50])).value ++
        (runWriter ((readEvents 0 [[49, 9, 50, 9, 97, 9, 49]]).2.2.2 + 1) []).2 :=
  (claim_C9_amended [[49, 9, 50, 9, 97, 9, 49]] (Op.put [98] [50]) []
    (by decide) (by decide)).1

/-- C10 counterexample: `WriteDelete("")` on a fresh log round-trips
exactly — the line `"1\t1\t\t"` scans as two integers followed by `io.EOF`,
leaving the key and value at their zero values, which coincide with the
written empty key and value — contradicting the claim's empty-key part. -/
theorem claim_C10_counterexample :
    (roundTrip [.del []]).1 = [⟨1, eventDelete, [], []⟩] ∧
    (roundTrip [.del []]).2.1 = none := by decide

/-- C10 amended: keys are serialized unescaped and parsed as
space-delimited tokens, so every event replayed from the log carries a
whitespace-free, newline-free key; writing an event whose key contains a
tab, space or newline and replaying the file therefore never reproduces
that key (an empty key, by contrast, can round-trip when the stale scanner
fields happen to coincide, as the counterexample shows). -/
theorem claim_C10_amended (op : Op) (b0 : Nat) (hb0 : b0 ∈ opKey op)
    (hbad : goIsSpace b0 = true ∨ b0 = 10) :
    ∀ ev ∈ (roundTrip [op]).1, ev.key ≠ opKey op := by
  intro ev hev hkeq
  have hplain := readLoop_keys_plain (splitLines (runWriter 0 [op]).2) initEvent 0
    (fun line hl => splitLines_no10 _ line hl) (by simp [initEvent]) ev hev
  have hb := hplain b0 (hkeq ▸ hb0)
  rcases hbad with hs | h10
  · rw [hs] at hb
    exact absurd hb.1 (by simp)
  · exact hb.2 h10

theorem claim_C10_witness :
    (⟨1, 2, [97], [98]⟩ : GoEvent).key ≠ opKey (.put [97, 32, 98] [118]) :=
  claim_C10_amended (.put [97, 32, 98] [118]) 32 (by decide) (by decide)
    ⟨1, 2, [97], [98]⟩ (by decide)

end Gokvs
